import Mathlib

/-!
# Verification of the calendar aggregation engine of `generate_dashboard.py`

This file gives a shallow embedding of the two core components of the
repository (the activity filter / daily reducer `process_activities` and the
calendar window aggregator `aggregate_data`) and proves the documented
properties of the five output series.

Modelling conventions:

* A Python `datetime.date` is modelled by `Strava.Date`, a year/month/day
  record over `ℤ` with the validity predicate `Strava.Valid`.  Python orders
  dates by their proleptic-Gregorian ordinal, which coincides with
  lexicographic order on (year, month, day); `Strava.dateLe` is that order and
  `Strava.toOrd` is the ordinal (`toOrd ⟨1,1,1⟩ = 1`, exactly Python's
  `date.toordinal`).
* Python `float` measures are modelled as exact rationals `ℚ`; Python's
  `round` (round half to even) is `Strava.pyRound`.
* Python dicts are modelled as association lists built with `Strava.dinsert`
  (update in place if the key is present, append otherwise — Python 3.7+
  insertion-order semantics) and read with `Strava.dictGet` (`dict.get` with a
  default).  The string keys `"YYYY-MM-DD"` / `"YYYY-MM"` of the source are
  represented by the `Date` (resp. (year, month) pair) they render, so that
  the lexicographic sort of the zero-padded labels is the pairwise order
  `Strava.mkeyLe` on the pairs.
* The `while current_day <= stop` / `current_day += timedelta(days=1)` loops
  of the source are embedded as `Strava.dateLoop`, which performs the same
  per-iteration bound test; the fuel argument passed at each call site is the
  exact day count of the window, and `dateLoop_eq_foldRange` proves the loop
  equal to a fold over the explicit day range.

On line 139 the source calls `.date()` on `first_day_last_month_dt`, which is
a `datetime.date` (built on line 138 from `date` values) and has no such
method, so the real `aggregate_data` raises `AttributeError` before any series
is computed; `Strava.aggregate_data_py` models that behaviour.  The evident
intent (the variable itself — the two expressions would be equal if line 138
had produced a `datetime`) is modelled by `Strava.aggregate_data`, which is
the source with line 139 read as the identity and everything else, including
the approximate 365×1.1-day window filter, translated verbatim.
-/

namespace Strava

/-- A calendar date: model of Python's `datetime.date` (year, month, day). -/
structure Date where
  year : ℤ
  month : ℤ
  day : ℤ
  deriving DecidableEq

/-- Gregorian leap year test, as Python's `calendar.isleap`. -/
def IsLeap (y : ℤ) : Prop := y % 4 = 0 ∧ (y % 100 ≠ 0 ∨ y % 400 = 0)

instance : DecidablePred IsLeap := fun y => by unfold IsLeap; infer_instance

/-- Number of days of month `m` of year `y`: `calendar.monthrange(y, m)[1]`. -/
def daysInMonth (y m : ℤ) : ℤ :=
  if m = 2 then (if IsLeap y then 29 else 28)
  else if m = 4 ∨ m = 6 ∨ m = 9 ∨ m = 11 then 30
  else 31

/-- The date is a valid Gregorian calendar date. -/
def Valid (dt : Date) : Prop :=
  1 ≤ dt.month ∧ dt.month ≤ 12 ∧ 1 ≤ dt.day ∧ dt.day ≤ daysInMonth dt.year dt.month

instance : DecidablePred Valid := fun dt => by unfold Valid; infer_instance

/-- Days of year `y` that precede month `m` (0 for January). -/
def daysBeforeMonth (y m : ℤ) : ℤ :=
  (367 * m - 362) / 12 - (if m ≤ 2 then 0 else if IsLeap y then 1 else 2)

/-- Number of leap years in `1, …, y-1` (proleptic Gregorian). -/
def leapsBefore (y : ℤ) : ℤ := (y - 1) / 4 - (y - 1) / 100 + (y - 1) / 400

/-- Proleptic Gregorian ordinal of a date, as Python's `date.toordinal`
(`toOrd ⟨1,1,1⟩ = 1`). -/
def toOrd (dt : Date) : ℤ :=
  365 * (dt.year - 1) + leapsBefore dt.year + daysBeforeMonth dt.year dt.month + dt.day

/-- Python's `<=` on dates: ordinal order = lexicographic on (y, m, d). -/
def dateLe (a b : Date) : Prop :=
  a.year < b.year ∨ (a.year = b.year ∧
    (a.month < b.month ∨ (a.month = b.month ∧ a.day ≤ b.day)))

/-- Python's `<` on dates. -/
def dateLt (a b : Date) : Prop :=
  a.year < b.year ∨ (a.year = b.year ∧
    (a.month < b.month ∨ (a.month = b.month ∧ a.day < b.day)))

instance : DecidableRel dateLe := fun a b => by unfold dateLe; infer_instance

instance : DecidableRel dateLt := fun a b => by unfold dateLt; infer_instance

/-- The day after `dt` (model of `dt + timedelta(days=1)`). -/
def nextDay (dt : Date) : Date :=
  if dt.day < daysInMonth dt.year dt.month then ⟨dt.year, dt.month, dt.day + 1⟩
  else if dt.month < 12 then ⟨dt.year, dt.month + 1, 1⟩
  else ⟨dt.year + 1, 1, 1⟩

/-- The day before `dt` (model of `dt - timedelta(days=1)`). -/
def prevDay (dt : Date) : Date :=
  if 1 < dt.day then ⟨dt.year, dt.month, dt.day - 1⟩
  else if 1 < dt.month then ⟨dt.year, dt.month - 1, daysInMonth dt.year (dt.month - 1)⟩
  else ⟨dt.year - 1, 12, 31⟩

/-- `dt + timedelta(days=n)` for `n ≥ 0`. -/
def addDays (dt : Date) (n : ℕ) : Date := nextDay^[n] dt

/-- `dt - timedelta(days=n)` for `n ≥ 0`. -/
def subDays (dt : Date) (n : ℕ) : Date := prevDay^[n] dt

/-- Python's `date.weekday()`: Monday = 0, …, Sunday = 6. -/
def weekday (dt : Date) : ℤ := (toOrd dt - 1) % 7

theorem daysInMonth_bounds (y m : ℤ) : 28 ≤ daysInMonth y m ∧ daysInMonth y m ≤ 31 := by
  unfold daysInMonth; split_ifs <;> omega

theorem daysBeforeMonth_step (y m : ℤ) (h1 : 1 ≤ m) (h2 : m ≤ 11) :
    daysBeforeMonth y (m + 1) = daysBeforeMonth y m + daysInMonth y m := by
  interval_cases m <;> simp only [daysBeforeMonth, daysInMonth] <;> norm_num <;>
    split_ifs <;> omega

theorem daysBeforeMonth_one (y : ℤ) : daysBeforeMonth y 1 = 0 := by
  simp only [daysBeforeMonth]; norm_num

theorem daysBeforeMonth_twelve (y : ℤ) :
    daysBeforeMonth y 12 = 334 + (if IsLeap y then 1 else 0) := by
  simp only [daysBeforeMonth]; split_ifs <;> omega

theorem daysInMonth_twelve (y : ℤ) : daysInMonth y 12 = 31 := by
  simp only [daysInMonth]; norm_num

theorem daysBeforeMonth_mono_aux (y : ℤ) (k : ℕ) :
    ∀ m : ℤ, 1 ≤ m → m + (k : ℤ) ≤ 12 → daysBeforeMonth y m ≤ daysBeforeMonth y (m + k) := by
  induction k with
  | zero => intro m _ _; simp
  | succ j ih =>
    intro m h1 h3
    have hstep := daysBeforeMonth_step y m h1 (by push_cast at h3; omega)
    have hdim := daysInMonth_bounds y m
    have hih := ih (m + 1) (by omega) (by push_cast at h3 ⊢; omega)
    have he : m + 1 + (j : ℤ) = m + ((j + 1 : ℕ) : ℤ) := by push_cast; ring
    rw [he] at hih
    omega

theorem daysBeforeMonth_mono (y : ℤ) {m m' : ℤ} (h1 : 1 ≤ m) (h2 : m ≤ m') (h3 : m' ≤ 12) :
    daysBeforeMonth y m ≤ daysBeforeMonth y m' := by
  obtain ⟨k, hk⟩ : ∃ k : ℕ, m' = m + k := ⟨(m' - m).toNat, by omega⟩
  subst hk
  exact daysBeforeMonth_mono_aux y k m h1 (by omega)

theorem daysBeforeMonth_nonneg (y m : ℤ) (h1 : 1 ≤ m) (h2 : m ≤ 12) :
    0 ≤ daysBeforeMonth y m := by
  have h0 := daysBeforeMonth_one y
  have := daysBeforeMonth_mono y (le_refl 1) h1 h2
  omega

theorem dayOfYear_bounds (dt : Date) (h : Valid dt) :
    1 ≤ daysBeforeMonth dt.year dt.month + dt.day ∧
    daysBeforeMonth dt.year dt.month + dt.day ≤ 365 + (if IsLeap dt.year then 1 else 0) := by
  obtain ⟨h1, h2, h3, h4⟩ := h
  have hnn := daysBeforeMonth_nonneg dt.year dt.month h1 h2
  have h12 := daysBeforeMonth_twelve dt.year
  have hd12 := daysInMonth_twelve dt.year
  constructor
  · omega
  · by_cases hm : dt.month = 12
    · rw [hm] at h4 ⊢
      split_ifs at h12 ⊢ <;> omega
    · have hstep := daysBeforeMonth_step dt.year dt.month h1 (by omega)
      have hmono := daysBeforeMonth_mono dt.year (by omega : 1 ≤ dt.month + 1)
        (by omega : dt.month + 1 ≤ 12) (le_refl 12)
      split_ifs at h12 ⊢ <;> omega

theorem leapsBefore_step (y : ℤ) :
    leapsBefore (y + 1) = leapsBefore y + (if IsLeap y then 1 else 0) := by
  unfold leapsBefore IsLeap
  split_ifs with h <;> omega

theorem leapsBefore_mono {y y' : ℤ} (h : y ≤ y') : leapsBefore y ≤ leapsBefore y' := by
  unfold leapsBefore; omega

theorem valid_nextDay {dt : Date} (h : Valid dt) : Valid (nextDay dt) := by
  obtain ⟨h1, h2, h3, h4⟩ := h
  have hb := daysInMonth_bounds dt.year dt.month
  have hb1 := daysInMonth_bounds dt.year (dt.month + 1)
  have hb2 := daysInMonth_bounds (dt.year + 1) 1
  unfold nextDay Valid
  split_ifs <;> simp_all <;> omega

theorem toOrd_nextDay {dt : Date} (h : Valid dt) : toOrd (nextDay dt) = toOrd dt + 1 := by
  obtain ⟨h1, h2, h3, h4⟩ := h
  unfold nextDay
  split_ifs with hd hm
  · simp [toOrd]; ring
  · have hstep := daysBeforeMonth_step dt.year dt.month h1 (by omega)
    simp [toOrd]
    omega
  · -- year rollover: month = 12, day = 31
    have hm12 : dt.month = 12 := by omega
    have hd31 : dt.day = 31 := by
      rw [hm12] at h4; rw [daysInMonth_twelve] at h4
      rw [hm12, daysInMonth_twelve] at hd
      omega
    have hstep := leapsBefore_step dt.year
    have h12 := daysBeforeMonth_twelve dt.year
    have h1' := daysBeforeMonth_one (dt.year + 1)
    simp only [toOrd, hm12, hd31]
    simp only at h1' ⊢
    split_ifs at hstep h12 <;> omega

theorem valid_prevDay {dt : Date} (h : Valid dt) : Valid (prevDay dt) := by
  obtain ⟨h1, h2, h3, h4⟩ := h
  have hb := daysInMonth_bounds dt.year dt.month
  have hb1 := daysInMonth_bounds dt.year (dt.month - 1)
  have hdec : daysInMonth (dt.year - 1) 12 = 31 := by
    unfold daysInMonth; norm_num
  unfold prevDay Valid
  split_ifs <;> simp only <;> omega

theorem toOrd_prevDay {dt : Date} (h : Valid dt) : toOrd (prevDay dt) = toOrd dt - 1 := by
  obtain ⟨h1, h2, h3, h4⟩ := h
  unfold prevDay
  split_ifs with hd hm
  · simp [toOrd]; ring
  · have hstep := daysBeforeMonth_step dt.year (dt.month - 1) (by omega) (by omega)
    simp only [toOrd]
    have : dt.month - 1 + 1 = dt.month := by ring
    rw [this] at hstep
    have hday : dt.day = 1 := by omega
    simp [hday]
    omega
  · -- into previous year: month = 1, day = 1
    have hm1 : dt.month = 1 := by omega
    have hd1 : dt.day = 1 := by omega
    have hstep := leapsBefore_step (dt.year - 1)
    have hy : dt.year - 1 + 1 = dt.year := by ring
    rw [hy] at hstep
    have h12 := daysBeforeMonth_twelve (dt.year - 1)
    have hd12 := daysInMonth_twelve (dt.year - 1)
    have h1' := daysBeforeMonth_one dt.year
    simp only [toOrd, hm1, hd1, hd12]
    split_ifs at hstep h12 <;> omega

theorem toOrd_lt_of_dateLt {a b : Date} (ha : Valid a) (hb : Valid b) (h : dateLt a b) :
    toOrd a < toOrd b := by
  have hda := dayOfYear_bounds a ha
  have hdb := dayOfYear_bounds b hb
  obtain ⟨ha1, ha2, ha3, ha4⟩ := ha
  obtain ⟨hb1, hb2, hb3, hb4⟩ := hb
  rcases h with hy | ⟨hy, hmd⟩
  · -- different years
    have hstep := leapsBefore_step a.year
    have hmono : leapsBefore (a.year + 1) ≤ leapsBefore b.year :=
      leapsBefore_mono (by omega)
    simp only [toOrd]
    split_ifs at hda hstep <;> omega
  · -- same year
    rcases hmd with hm | ⟨hm, hd⟩
    · -- earlier month
      have hstep := daysBeforeMonth_step a.year a.month ha1 (by omega)
      have hmono : daysBeforeMonth a.year (a.month + 1) ≤ daysBeforeMonth a.year b.month :=
        daysBeforeMonth_mono a.year (by omega) (by omega) hb2
      rw [hy] at hstep hmono ha4
      simp only [toOrd, hy]
      omega
    · simp only [toOrd, hy, hm]
      omega

theorem not_dateLe {a b : Date} (h : ¬ dateLe a b) : dateLt b a := by
  unfold dateLe at h
  unfold dateLt
  omega

theorem dateLe_of_eq {a b : Date} (h : a = b) : dateLe a b := by
  subst h; unfold dateLe; omega

theorem dateLe_iff_toOrd {a b : Date} (ha : Valid a) (hb : Valid b) :
    dateLe a b ↔ toOrd a ≤ toOrd b := by
  constructor
  · intro h
    by_cases heq : a = b
    · subst heq; omega
    · have hlt : dateLt a b := by
        unfold dateLe at h
        unfold dateLt
        rcases a with ⟨ya, ma, da⟩
        rcases b with ⟨yb, mb, db⟩
        simp only at *
        have : ¬ (ya = yb ∧ ma = mb ∧ da = db) := by
          intro ⟨e1, e2, e3⟩; exact heq (by simp [e1, e2, e3])
        omega
      exact le_of_lt (toOrd_lt_of_dateLt ha hb hlt)
  · intro h
    by_contra hc
    have := toOrd_lt_of_dateLt hb ha (not_dateLe hc)
    omega

theorem dateLt_iff_toOrd {a b : Date} (ha : Valid a) (hb : Valid b) :
    dateLt a b ↔ toOrd a < toOrd b := by
  constructor
  · exact toOrd_lt_of_dateLt ha hb
  · intro h
    by_contra hc
    have hba : dateLe b a := by
      unfold dateLt at hc
      unfold dateLe
      omega
    have := (dateLe_iff_toOrd hb ha).mp hba
    omega

theorem toOrd_inj {a b : Date} (ha : Valid a) (hb : Valid b) (h : toOrd a = toOrd b) :
    a = b := by
  by_contra hne
  have hlt : dateLt a b ∨ dateLt b a := by
    unfold dateLt
    rcases a with ⟨ya, ma, da⟩
    rcases b with ⟨yb, mb, db⟩
    simp only at *
    have : ¬ (ya = yb ∧ ma = mb ∧ da = db) := by
      intro ⟨e1, e2, e3⟩; exact hne (by simp [e1, e2, e3])
    omega
  rcases hlt with h1 | h1
  · have := toOrd_lt_of_dateLt ha hb h1; omega
  · have := toOrd_lt_of_dateLt hb ha h1; omega

theorem valid_addDays {dt : Date} (h : Valid dt) (n : ℕ) : Valid (addDays dt n) := by
  induction n with
  | zero => exact h
  | succ k ih =>
    rw [addDays, Function.iterate_succ_apply']
    exact valid_nextDay ih

theorem toOrd_addDays {dt : Date} (h : Valid dt) (n : ℕ) :
    toOrd (addDays dt n) = toOrd dt + n := by
  induction n with
  | zero => simp [addDays]
  | succ k ih =>
    rw [addDays, Function.iterate_succ_apply',
      show nextDay^[k] dt = addDays dt k from rfl,
      toOrd_nextDay (valid_addDays h k), ih]
    push_cast
    ring

theorem valid_subDays {dt : Date} (h : Valid dt) (n : ℕ) : Valid (subDays dt n) := by
  induction n with
  | zero => exact h
  | succ k ih =>
    rw [subDays, Function.iterate_succ_apply']
    exact valid_prevDay ih

theorem toOrd_subDays {dt : Date} (h : Valid dt) (n : ℕ) :
    toOrd (subDays dt n) = toOrd dt - n := by
  induction n with
  | zero => simp [subDays]
  | succ k ih =>
    rw [subDays, Function.iterate_succ_apply',
      show prevDay^[k] dt = subDays dt k from rfl,
      toOrd_prevDay (valid_subDays h k), ih]
    push_cast
    ring

theorem addDays_in_month {y m d : ℤ} (_h : Valid ⟨y, m, d⟩) (i : ℕ)
    (hi : d + i ≤ daysInMonth y m) : addDays ⟨y, m, d⟩ i = ⟨y, m, d + i⟩ := by
  induction i with
  | zero => simp [addDays]
  | succ k ih =>
    rw [addDays, Function.iterate_succ_apply']
    have hk : addDays ⟨y, m, d⟩ k = ⟨y, m, d + k⟩ := ih (by push_cast at hi ⊢; omega)
    rw [addDays] at hk
    rw [hk]
    unfold nextDay
    have : d + (k : ℤ) < daysInMonth y m := by push_cast at hi; omega
    simp only [this, if_pos]
    congr 1
    push_cast
    ring

/-! ## Python dicts, `round`, and the day-stepping `while` loops -/

/-- `d[k] = v` on an insertion-ordered dict (Python 3.7+): overwrite in place
when the key exists, append otherwise. -/
def dinsert {κ ν : Type} [DecidableEq κ] (l : List (κ × ν)) (k : κ) (v : ν) :
    List (κ × ν) :=
  if k ∈ l.map Prod.fst then l.map (fun p => if p.1 = k then (p.1, v) else p)
  else l ++ [(k, v)]

/-- `d.get(k, v0)` on an association-list dict. -/
def dictGet {κ ν : Type} [DecidableEq κ] : List (κ × ν) → κ → ν → ν
  | [], _, v0 => v0
  | (a, b) :: t, k, v0 => if a = k then b else dictGet t k v0

theorem dinsert_fresh {κ ν : Type} [DecidableEq κ] (l : List (κ × ν)) (k : κ) (v : ν)
    (h : k ∉ l.map Prod.fst) : dinsert l k v = l ++ [(k, v)] := by
  unfold dinsert
  simp [h]

/-- Executable floor of a rational. -/
def ratFloor (q : ℚ) : ℤ := q.num / (q.den : ℤ)

theorem ratFloor_eq (q : ℚ) : ratFloor q = ⌊q⌋ := Rat.floor_def.symm

/-- Python's built-in `round` to an integer: nearest, ties to even. -/
def pyRound (q : ℚ) : ℤ :=
  if q - ratFloor q < 1/2 then ratFloor q
  else if 1/2 < q - ratFloor q then ratFloor q + 1
  else if ratFloor q % 2 = 0 then ratFloor q else ratFloor q + 1

theorem pyRound_bounds (q : ℚ) : ⌊q⌋ ≤ pyRound q ∧ pyRound q ≤ ⌊q⌋ + 1 := by
  unfold pyRound
  rw [ratFloor_eq]
  split_ifs <;> omega

theorem pyRound_nonneg {q : ℚ} (h : 0 ≤ q) : 0 ≤ pyRound q := by
  have hb := pyRound_bounds q
  have hf : (0 : ℤ) ≤ ⌊q⌋ := Int.floor_nonneg.mpr h
  omega

theorem pyRound_mono {a b : ℚ} (h : a ≤ b) : pyRound a ≤ pyRound b := by
  have hab : ⌊a⌋ ≤ ⌊b⌋ := Int.floor_le_floor h
  have hba := pyRound_bounds a
  have hbb := pyRound_bounds b
  by_cases heq : ⌊a⌋ = ⌊b⌋
  · unfold pyRound
    rw [ratFloor_eq a, ratFloor_eq b, heq]
    have hfr : b - ⌊b⌋ ≥ a - ⌊b⌋ := by linarith
    split_ifs <;> first | omega | linarith
  · omega

/-- The `current_day = start` / `while current_day <= stop:` / body /
`current_day += timedelta(days=1)` loop shape of the source.  `fuel` is only a
termination certificate; each call site passes the exact day count of its
window (`spanFuel`), and `dateLoop_eq_foldRange` discharges it. -/
def dateLoop {σ : Type} (stop : Date) (body : Date → σ → σ) :
    ℕ → Date → σ → σ
  | 0, _, s => s
  | fuel + 1, cur, s =>
    if dateLe cur stop then dateLoop stop body fuel (nextDay cur) (body cur s) else s

/-- Number of days in the window `[start, stop]` (0 when `start > stop`). -/
def spanFuel (start stop : Date) : ℕ := (toOrd stop + 1 - toOrd start).toNat

/-- The days `start, start+1, …, start+(n-1)`. -/
def dayRange (start : Date) (n : ℕ) : List Date :=
  (List.range n).map (fun i => addDays start i)

theorem dayRange_cons (start : Date) (k : ℕ) :
    dayRange start (k + 1) = start :: dayRange (nextDay start) k := by
  simp only [dayRange, List.range_succ_eq_map, List.map_cons, List.map_map]
  refine List.cons_eq_cons.mpr ⟨rfl, ?_⟩
  apply List.map_congr_left
  intro i _
  simp [addDays, Function.comp, Function.iterate_succ_apply]

theorem dayRange_snoc (start : Date) (k : ℕ) :
    dayRange start (k + 1) = dayRange start k ++ [addDays start k] := by
  unfold dayRange
  rw [List.range_succ]
  simp

theorem mem_dayRange {start : Date} {n : ℕ} {d : Date} (h : d ∈ dayRange start n) :
    ∃ i : ℕ, i < n ∧ d = addDays start i := by
  unfold dayRange at h
  simp only [List.mem_map, List.mem_range] at h
  obtain ⟨i, hi, he⟩ := h
  exact ⟨i, hi, he.symm⟩

theorem dateLoop_eq_foldRange {σ : Type} (stop : Date) (body : Date → σ → σ)
    (hstop : Valid stop) :
    ∀ (n fuel : ℕ) (start : Date), Valid start →
      (n : ℤ) = toOrd stop + 1 - toOrd start → n ≤ fuel → ∀ s : σ,
      dateLoop stop body fuel start s =
        (dayRange start n).foldl (fun t d => body d t) s := by
  intro n
  induction n with
  | zero =>
    intro fuel start hv hn hf s
    have hnle : ¬ dateLe start stop := by
      intro hle
      have := (dateLe_iff_toOrd hv hstop).mp hle
      simp at hn
      omega
    cases fuel with
    | zero => rfl
    | succ f =>
      unfold dateLoop
      rw [if_neg hnle]
      rfl
  | succ k ih =>
    intro fuel start hv hn hf s
    cases fuel with
    | zero => omega
    | succ f =>
      have hle : dateLe start stop := by
        apply (dateLe_iff_toOrd hv hstop).mpr
        push_cast at hn
        omega
      unfold dateLoop
      rw [if_pos hle]
      rw [dayRange_cons, List.foldl_cons]
      apply ih f (nextDay start) (valid_nextDay hv)
      · rw [toOrd_nextDay hv]
        push_cast at hn ⊢
        omega
      · omega

theorem foldl_congr_mem {α β : Type} (l : List α) (f g : β → α → β)
    (h : ∀ a ∈ l, ∀ x, f x a = g x a) : ∀ b, l.foldl f b = l.foldl g b := by
  induction l with
  | nil => intro b; rfl
  | cons x xs ih =>
    intro b
    simp only [List.foldl_cons]
    rw [h x (by simp)]
    exact ih (fun a ha x => h a (by simp [ha]) x) _

/-! ## Activity Filter & Daily Reducer (`process_activities`, lines 104–126) -/

/-- Per-day totals: the dict `daily_elevation : date → float`. -/
abbrev DailyTotals := List (Date × ℚ)

/-- The value found under `total_elevation_gain`: either a number, or a value
on which `float(…)` raises (a non-numeric string, `None`, …). -/
inductive Measure where
  | num (q : ℚ)
  | nonNumeric
  deriving DecidableEq

/-- One raw activity record, restricted to the fields `process_activities`
reads.  `start_date_local` is the result of slicing to 10 characters and
parsing with `strptime`: `none` means the key is missing or the prefix does
not parse as a date, in either case the `try` block raises and the record is
skipped with a warning.  `total_elevation_gain` is `none` when the key is
absent (so `activity.get` supplies the default `0`). -/
structure Activity where
  type : Option String
  start_date_local : Option Date
  total_elevation_gain : Option Measure
  deriving DecidableEq

/-- `ACTIVITY_TYPES` (line 14). -/
def ACTIVITY_TYPES : List String := ["Run", "Walk", "Hike"]

/-- Lines 104–126: filter by activity type and accumulate elevation gain by
local start day.  A record whose date fails to parse, or whose
`total_elevation_gain` is present but not coercible by `float`, raises inside
the `try` and is skipped; an absent `total_elevation_gain` defaults to 0. -/
def process_activities (activities : List Activity) : DailyTotals :=
  activities.foldl (fun daily_elevation activity =>
    match activity.type with
    | none => daily_elevation
    | some t =>
      if t ∈ ACTIVITY_TYPES then
        match activity.start_date_local with
        | none => daily_elevation
        | some d =>
          match activity.total_elevation_gain with
          | none =>
            dinsert daily_elevation d (dictGet daily_elevation d 0 + 0)
          | some (Measure.num q) =>
            dinsert daily_elevation d (dictGet daily_elevation d 0 + q)
          | some Measure.nonNumeric => daily_elevation
      else daily_elevation) []

/-! ## Calendar Window Aggregator (`aggregate_data`, lines 128–248) -/

/-- `d.replace(day=1)`. -/
def monthStartOf (dt : Date) : Date := ⟨dt.year, dt.month, 1⟩

/-- `(d.replace(day=1) - timedelta(days=1)).replace(day=1)`: first day of the
month before `d`'s (lines 162/164). -/
def monthBack (dt : Date) : Date := monthStartOf (prevDay (monthStartOf dt))

/-- Order on (year, month) pairs; this is the order `sorted()` puts the
`"YYYY-MM"` labels in (line 194). -/
def mkeyLe (a b : ℤ × ℤ) : Prop := a.1 < b.1 ∨ (a.1 = b.1 ∧ a.2 ≤ b.2)

instance : DecidableRel mkeyLe := fun a b => by unfold mkeyLe; infer_instance

/-- Lines 158–196: the trailing-months histogram.  The backward walk starts
at the first day of last month and steps 12 months back (one step on line
162 and 11 more on lines 163–164); the `for i in range(13)` loop then sums
each month, guarded by `current_day <= today`, and inserts the bucket under
the two filters of lines 182–184.  `timedelta(days=365*1.1)` is
`timedelta(days=401, hours=12)`, and Python date arithmetic ignores the
sub-day part, so the cutoff subtracts 401 days.  Finally the keys are
sorted and the last 12 are kept (lines 194–195).  The body of the
`for i in range(13)` loop (lines 167–189) is the separate definition
`histStep`: sum the month under the `current_day <= today` guard, insert the
bucket under the two filters of lines 182–184, and step `current_date` to
the next month. -/
def histStep (daily : DailyTotals) (today first_day_current_month cutoff : Date)
    (st : Date × List ((ℤ × ℤ) × ℤ)) (_i : ℕ) : Date × List ((ℤ × ℤ) × ℤ) :=
  let cd := st.1
  let month_start : Date := ⟨cd.year, cd.month, 1⟩
  let month_end : Date := ⟨cd.year, cd.month, daysInMonth cd.year cd.month⟩
  let total_gain : ℚ := dateLoop month_end
    (fun cur acc => if dateLe cur today then acc + dictGet daily cur 0 else acc)
    (spanFuel month_start month_end) month_start 0
  let hist :=
    if 0 < total_gain ∨ dateLt month_start first_day_current_month then
      if dateLe cutoff month_start then
        dinsert st.2 (cd.year, cd.month) (pyRound total_gain)
      else st.2
    else st.2
  (monthStartOf (addDays month_end 1), hist)

def histYearMonthOf (daily : DailyTotals)
    (today first_day_current_month first_day_last_month : Date) :
    List ((ℤ × ℤ) × ℤ) :=
  let start0 := monthBack first_day_last_month
  let cstart := monthBack^[11] start0
  let cutoff := monthStartOf (subDays (monthStartOf today) 401)
  let final := (List.range 13).foldl
    (histStep daily today first_day_current_month cutoff) (cstart, [])
  let sorted_months := List.insertionSort mkeyLe (final.2.map Prod.fst)
  (sorted_months.drop (sorted_months.length - 12)).map
    (fun k => (k, dictGet final.2 k 0))

/-- Lines 199–208: one rounded entry per day of last month. -/
def histLastMonthDayOf (daily : DailyTotals)
    (first_day_last_month last_day_last_month : Date) : List (Date × ℤ) :=
  dateLoop last_day_last_month
    (fun cur out => dinsert out cur (pyRound (dictGet daily cur 0)))
    (spanFuel first_day_last_month last_day_last_month) first_day_last_month []

/-- Lines 211–232: the `running_total` loop shared by the cumulative-year and
cumulative-month blocks (they are textually identical up to the start date). -/
def runningSumLoop (daily : DailyTotals) (first today : Date) : List (Date × ℤ) :=
  (dateLoop today
    (fun cur st =>
      let rt := st.1 + dictGet daily cur 0
      (rt, dinsert st.2 cur (pyRound rt)))
    (spanFuel first today) first ((0 : ℚ), [])).2

/-- Lines 234–245: the cumulative-week loop, including the redundant
`if current_day >= start_of_week` guard inside the body (line 240). -/
def cumulWeekOf (daily : DailyTotals) (start_of_week today : Date) : List (Date × ℤ) :=
  (dateLoop today
    (fun cur st =>
      if dateLe start_of_week cur then
        let rt := st.1 + dictGet daily cur 0
        (rt, dinsert st.2 cur (pyRound rt))
      else st)
    (spanFuel start_of_week today) start_of_week ((0 : ℚ), [])).2

/-- The five series `aggregate_data` returns (the dict `aggregates`). -/
structure Aggregates where
  hist_year_month : List ((ℤ × ℤ) × ℤ)
  hist_last_month_day : List (Date × ℤ)
  cumul_year : List (Date × ℤ)
  cumul_month : List (Date × ℤ)
  cumul_week : List (Date × ℤ)
  deriving DecidableEq

/-- Lines 128–248 with line 139's spurious `.date()` call read as the
identity (see the header comment and `aggregate_data_py`): the boundary dates
of lines 134–145 followed by the five aggregation blocks. -/
def aggregate_data (daily : DailyTotals) (today : Date) : Aggregates :=
  let first_day_current_year : Date := ⟨today.year, 1, 1⟩
  let first_day_current_month : Date := ⟨today.year, today.month, 1⟩
  let first_day_last_month := monthStartOf (prevDay first_day_current_month)
  let last_day_last_month := prevDay first_day_current_month
  let start_of_week := subDays today (weekday today).toNat
  { hist_year_month :=
      histYearMonthOf daily today first_day_current_month first_day_last_month
    hist_last_month_day :=
      histLastMonthDayOf daily first_day_last_month last_day_last_month
    cumul_year := runningSumLoop daily first_day_current_year today
    cumul_month := runningSumLoop daily first_day_current_month today
    cumul_week := cumulWeekOf daily start_of_week today }

/-- `aggregate_data` as the source actually executes: line 133 computes
`today - timedelta(days=365)`, which raises `OverflowError` when the result
would precede `date.min` (ordinal 1); otherwise execution reaches line 139,
`first_day_last_month_dt.date()`, where `first_day_last_month_dt` is the
`datetime.date` built on line 138 — `datetime.date` has no method `date`, so
every call raises `AttributeError` there, before any series is computed. -/
def aggregate_data_py (_daily : DailyTotals) (today : Date) :
    Except String Aggregates :=
  if toOrd today - 365 < 1 then
    Except.error "OverflowError: date value out of range"
  else
    Except.error "AttributeError: 'datetime.date' object has no attribute 'date'"

/-! ## Closed forms of the day-stepping loops -/

/-- Exact (unrounded) sum of the daily values over the first `k` days from
`start`. -/
def seriesSum (daily : DailyTotals) (start : Date) (k : ℕ) : ℚ :=
  ((List.range k).map (fun j => dictGet daily (addDays start j) 0)).sum

/-- Closed form of a running-sum loop over `n` days from `start`: the `i`-th
entry is day `start+i` with the rounded exact prefix sum. -/
def runSumSeries (daily : DailyTotals) (start : Date) (n : ℕ) : List (Date × ℤ) :=
  (List.range n).map (fun i => (addDays start i, pyRound (seriesSum daily start (i + 1))))

/-- Closed form of a per-day histogram loop over `n` days from `start`. -/
def dayValsSeries (daily : DailyTotals) (start : Date) (n : ℕ) : List (Date × ℤ) :=
  (List.range n).map (fun i => (addDays start i, pyRound (dictGet daily (addDays start i) 0)))

theorem seriesSum_succ (daily : DailyTotals) (start : Date) (k : ℕ) :
    seriesSum daily start (k + 1) = seriesSum daily start k + dictGet daily (addDays start k) 0 := by
  unfold seriesSum
  rw [List.range_succ]
  simp

theorem runSumSeries_keys (daily : DailyTotals) (start : Date) (n : ℕ) :
    (runSumSeries daily start n).map Prod.fst = dayRange start n := by
  simp [runSumSeries, dayRange, List.map_map, Function.comp]

theorem dayValsSeries_keys (daily : DailyTotals) (start : Date) (n : ℕ) :
    (dayValsSeries daily start n).map Prod.fst = dayRange start n := by
  simp [dayValsSeries, dayRange, List.map_map, Function.comp]

theorem addDays_not_mem_dayRange {start : Date} (hv : Valid start) (n : ℕ) :
    addDays start n ∉ dayRange start n := by
  intro hmem
  obtain ⟨i, hi, he⟩ := mem_dayRange hmem
  have h1 := toOrd_addDays hv n
  have h2 := toOrd_addDays hv i
  rw [← he] at h2
  omega

theorem rsFold (daily : DailyTotals) {start : Date} (hv : Valid start) (n : ℕ) :
    (dayRange start n).foldl (fun t d =>
      let rt := t.1 + dictGet daily d 0
      (rt, dinsert t.2 d (pyRound rt))) ((0 : ℚ), ([] : List (Date × ℤ))) =
    (seriesSum daily start n, runSumSeries daily start n) := by
  induction n with
  | zero => simp [dayRange, seriesSum, runSumSeries]
  | succ k ih =>
    rw [dayRange_snoc, List.foldl_append, ih]
    simp only [List.foldl_cons, List.foldl_nil]
    have hfresh : addDays start k ∉ (runSumSeries daily start k).map Prod.fst := by
      rw [runSumSeries_keys]
      exact addDays_not_mem_dayRange hv k
    rw [dinsert_fresh _ _ _ hfresh]
    rw [← seriesSum_succ]
    unfold runSumSeries
    rw [List.range_succ]
    simp

theorem dvFold (daily : DailyTotals) {start : Date} (hv : Valid start) (n : ℕ) :
    (dayRange start n).foldl (fun t d => dinsert t d (pyRound (dictGet daily d 0)))
      ([] : List (Date × ℤ)) = dayValsSeries daily start n := by
  induction n with
  | zero => simp [dayRange, dayValsSeries]
  | succ k ih =>
    rw [dayRange_snoc, List.foldl_append, ih]
    simp only [List.foldl_cons, List.foldl_nil]
    have hfresh : addDays start k ∉ (dayValsSeries daily start k).map Prod.fst := by
      rw [dayValsSeries_keys]
      exact addDays_not_mem_dayRange hv k
    rw [dinsert_fresh _ _ _ hfresh]
    unfold dayValsSeries
    rw [List.range_succ]
    simp

theorem spanFuel_cast {first today : Date} (hle : toOrd first ≤ toOrd today) :
    (spanFuel first today : ℤ) = toOrd today + 1 - toOrd first := by
  unfold spanFuel
  rw [Int.toNat_of_nonneg (by omega)]

theorem runningSumLoop_eq (daily : DailyTotals) {first today : Date}
    (hf : Valid first) (ht : Valid today) (hle : toOrd first ≤ toOrd today) :
    runningSumLoop daily first today = runSumSeries daily first (spanFuel first today) := by
  unfold runningSumLoop
  rw [dateLoop_eq_foldRange today _ ht (spanFuel first today) (spanFuel first today)
    first hf (spanFuel_cast hle) (le_refl _) ((0 : ℚ), [])]
  rw [show (fun (t : ℚ × List (Date × ℤ)) (d : Date) =>
      (fun cur st =>
        let rt := st.1 + dictGet daily cur 0
        (rt, dinsert st.2 cur (pyRound rt))) d t) = (fun t d =>
      let rt := t.1 + dictGet daily d 0
      (rt, dinsert t.2 d (pyRound rt))) from rfl]
  rw [rsFold daily hf]

theorem histLastMonthDayOf_eq (daily : DailyTotals) {first last : Date}
    (hf : Valid first) (hl : Valid last) (hle : toOrd first ≤ toOrd last) :
    histLastMonthDayOf daily first last = dayValsSeries daily first (spanFuel first last) := by
  unfold histLastMonthDayOf
  rw [dateLoop_eq_foldRange last _ hl (spanFuel first last) (spanFuel first last)
    first hf (spanFuel_cast hle) (le_refl _) []]
  rw [show (fun (t : List (Date × ℤ)) (d : Date) =>
      (fun cur out => dinsert out cur (pyRound (dictGet daily cur 0))) d t) =
      (fun t d => dinsert t d (pyRound (dictGet daily d 0))) from rfl]
  rw [dvFold daily hf]

theorem cumulWeekOf_eq_plain (daily : DailyTotals) {start today : Date}
    (hs : Valid start) (ht : Valid today) (hle : toOrd start ≤ toOrd today) :
    cumulWeekOf daily start today = runningSumLoop daily start today := by
  unfold cumulWeekOf runningSumLoop
  rw [dateLoop_eq_foldRange today _ ht (spanFuel start today) (spanFuel start today)
    start hs (spanFuel_cast hle) (le_refl _) ((0 : ℚ), []),
    dateLoop_eq_foldRange today _ ht (spanFuel start today) (spanFuel start today)
    start hs (spanFuel_cast hle) (le_refl _) ((0 : ℚ), [])]
  have hcong := foldl_congr_mem (dayRange start (spanFuel start today))
    (fun (t : ℚ × List (Date × ℤ)) d =>
      (fun cur st =>
        if dateLe start cur then
          let rt := st.1 + dictGet daily cur 0
          (rt, dinsert st.2 cur (pyRound rt))
        else st) d t)
    (fun t d =>
      (fun cur st =>
        let rt := st.1 + dictGet daily cur 0
        (rt, dinsert st.2 cur (pyRound rt))) d t) ?_
  · rw [hcong]
  · intro a ha x
    obtain ⟨i, _, he⟩ := mem_dayRange ha
    have hguard : dateLe start a := by
      apply (dateLe_iff_toOrd hs (by rw [he]; exact valid_addDays hs i)).mpr
      rw [he, toOrd_addDays hs]
      omega
    simp only [if_pos hguard]

/-! ## Projections of `aggregate_data` (the boundary dates of lines 134–145,
zeta-reduced) -/

set_option maxRecDepth 4000 in
theorem aggregate_hist_year_month (daily : DailyTotals) (today : Date) :
    (aggregate_data daily today).hist_year_month =
      histYearMonthOf daily today ⟨today.year, today.month, 1⟩
        (monthStartOf (prevDay ⟨today.year, today.month, 1⟩)) := rfl

theorem aggregate_hist_last_month_day (daily : DailyTotals) (today : Date) :
    (aggregate_data daily today).hist_last_month_day =
      histLastMonthDayOf daily (monthStartOf (prevDay ⟨today.year, today.month, 1⟩))
        (prevDay ⟨today.year, today.month, 1⟩) := rfl

theorem aggregate_cumul_year (daily : DailyTotals) (today : Date) :
    (aggregate_data daily today).cumul_year =
      runningSumLoop daily ⟨today.year, 1, 1⟩ today := rfl

theorem aggregate_cumul_month (daily : DailyTotals) (today : Date) :
    (aggregate_data daily today).cumul_month =
      runningSumLoop daily ⟨today.year, today.month, 1⟩ today := rfl

theorem aggregate_cumul_week (daily : DailyTotals) (today : Date) :
    (aggregate_data daily today).cumul_week =
      cumulWeekOf daily (subDays today (weekday today).toNat) today := rfl

/-! ## Boundary-date facts -/

theorem valid_firstOfMonth {y m : ℤ} (h1 : 1 ≤ m) (h2 : m ≤ 12) : Valid ⟨y, m, 1⟩ := by
  have := daysInMonth_bounds y m
  unfold Valid
  dsimp only
  omega

theorem toOrd_firstOfMonth_le (today : Date) (ht : Valid today) :
    toOrd ⟨today.year, today.month, 1⟩ ≤ toOrd today := by
  obtain ⟨h1, h2, h3, h4⟩ := ht
  simp only [toOrd]
  omega

theorem toOrd_firstOfYear_le (today : Date) (ht : Valid today) :
    toOrd ⟨today.year, 1, 1⟩ ≤ toOrd today := by
  obtain ⟨h1, h2, h3, h4⟩ := ht
  have hnn := daysBeforeMonth_nonneg today.year today.month h1 h2
  have h0 := daysBeforeMonth_one today.year
  simp only [toOrd]
  omega

theorem valid_firstOfYear (y : ℤ) : Valid ⟨y, 1, 1⟩ := valid_firstOfMonth (le_refl 1) (by norm_num)

theorem spanFuel_month (today : Date) (ht : Valid today) :
    spanFuel ⟨today.year, today.month, 1⟩ today = today.day.toNat := by
  obtain ⟨h1, h2, h3, h4⟩ := ht
  simp only [spanFuel, toOrd]
  omega

theorem weekday_bounds (dt : Date) : 0 ≤ weekday dt ∧ weekday dt < 7 := by
  unfold weekday
  omega

theorem toOrd_startOfWeek (today : Date) (ht : Valid today) :
    toOrd (subDays today (weekday today).toNat) = toOrd today - weekday today := by
  have hb := weekday_bounds today
  rw [toOrd_subDays ht]
  omega

theorem spanFuel_week (today : Date) (ht : Valid today) :
    spanFuel (subDays today (weekday today).toNat) today = (weekday today).toNat + 1 := by
  have hb := weekday_bounds today
  have hs := toOrd_startOfWeek today ht
  simp only [spanFuel, hs]
  omega

theorem weekday_startOfWeek (today : Date) (ht : Valid today) :
    weekday (subDays today (weekday today).toNat) = 0 := by
  have hs := toOrd_startOfWeek today ht
  simp only [weekday] at *
  omega

theorem prevDay_firstOfMonth (today : Date) (ht : Valid today) :
    prevDay ⟨today.year, today.month, 1⟩ =
      if today.month = 1 then ⟨today.year - 1, 12, 31⟩
      else ⟨today.year, today.month - 1, daysInMonth today.year (today.month - 1)⟩ := by
  obtain ⟨h1, h2, h3, h4⟩ := ht
  unfold prevDay
  simp only
  split_ifs <;> first | rfl | omega

/-! ## Month-index bookkeeping for the trailing-months histogram -/

/-- Absolute month number of a (year, month) pair (month 1 of year 0 is 0). -/
def mIdx (p : ℤ × ℤ) : ℤ := 12 * p.1 + p.2 - 1

/-- The (year, month) pair of an absolute month number. -/
def pairOfIdx (k : ℤ) : ℤ × ℤ := (k / 12, k % 12 + 1)

/-- Absolute month number of a date's month. -/
def midxOf (dt : Date) : ℤ := 12 * dt.year + dt.month - 1

/-- First day of the month with absolute number `k`. -/
def firstOfIdx (k : ℤ) : Date := ⟨k / 12, k % 12 + 1, 1⟩

theorem mIdx_pairOfIdx (k : ℤ) : mIdx (pairOfIdx k) = k := by
  unfold mIdx pairOfIdx
  simp only
  omega

theorem pairOfIdx_inj {a b : ℤ} (h : pairOfIdx a = pairOfIdx b) : a = b := by
  have ha := mIdx_pairOfIdx a
  have hb := mIdx_pairOfIdx b
  rw [h] at ha
  omega

theorem pairOfIdx_month_bounds (k : ℤ) :
    1 ≤ (pairOfIdx k).2 ∧ (pairOfIdx k).2 ≤ 12 := by
  unfold pairOfIdx
  simp only
  omega

theorem firstOfIdx_valid (k : ℤ) : Valid (firstOfIdx k) := by
  unfold firstOfIdx
  exact valid_firstOfMonth (by omega) (by omega)

theorem midxOf_firstOfIdx (k : ℤ) : midxOf (firstOfIdx k) = k := by
  unfold midxOf firstOfIdx
  simp only
  omega

theorem firstOfMonth_eq_firstOfIdx {y m : ℤ} (h1 : 1 ≤ m) (h2 : m ≤ 12) :
    (⟨y, m, 1⟩ : Date) = firstOfIdx (12 * y + m - 1) := by
  unfold firstOfIdx
  have hd : (12 * y + m - 1) / 12 = y := by omega
  have hm : (12 * y + m - 1) % 12 + 1 = m := by omega
  rw [hd, hm]

theorem valid_monthEnd {y m : ℤ} (h1 : 1 ≤ m) (h2 : m ≤ 12) :
    Valid ⟨y, m, daysInMonth y m⟩ := by
  have := daysInMonth_bounds y m
  unfold Valid
  dsimp only
  omega

theorem monthBack_firstOfIdx (k : ℤ) : monthBack (firstOfIdx k) = firstOfIdx (k - 1) := by
  simp only [monthBack, monthStartOf, prevDay, firstOfIdx]
  split_ifs with h1 h2
  · omega
  · dsimp only
    rw [Date.mk.injEq]
    refine ⟨by omega, by omega, rfl⟩
  · dsimp only
    rw [Date.mk.injEq]
    refine ⟨by omega, by omega, rfl⟩

theorem monthBack_iter (j : ℕ) (k : ℤ) :
    monthBack^[j] (firstOfIdx k) = firstOfIdx (k - j) := by
  induction j generalizing k with
  | zero => simp
  | succ i ih =>
    rw [Function.iterate_succ_apply, monthBack_firstOfIdx, ih]
    congr 1
    push_cast
    ring

theorem nextDay_monthEnd (k : ℤ) :
    nextDay ⟨k / 12, k % 12 + 1, daysInMonth (k / 12) (k % 12 + 1)⟩ = firstOfIdx (k + 1) := by
  have hb := daysInMonth_bounds (k / 12) (k % 12 + 1)
  simp only [nextDay, firstOfIdx]
  split_ifs with h1 h2
  · omega
  · rw [Date.mk.injEq]
    refine ⟨by omega, by omega, rfl⟩
  · rw [Date.mk.injEq]
    refine ⟨by omega, by omega, rfl⟩

theorem toOrd_firstOfIdx_succ (k : ℤ) :
    toOrd (firstOfIdx (k + 1)) =
      toOrd (firstOfIdx k) + daysInMonth (k / 12) (k % 12 + 1) := by
  have hb := daysInMonth_bounds (k / 12) (k % 12 + 1)
  have hvme : Valid ⟨k / 12, k % 12 + 1, daysInMonth (k / 12) (k % 12 + 1)⟩ :=
    valid_monthEnd (by omega) (by omega)
  have h1 : toOrd (firstOfIdx (k + 1)) =
      toOrd ⟨k / 12, k % 12 + 1, daysInMonth (k / 12) (k % 12 + 1)⟩ + 1 := by
    rw [← nextDay_monthEnd k, toOrd_nextDay hvme]
  have h2 : toOrd ⟨k / 12, k % 12 + 1, daysInMonth (k / 12) (k % 12 + 1)⟩ =
      toOrd (firstOfIdx k) + daysInMonth (k / 12) (k % 12 + 1) - 1 := by
    unfold toOrd firstOfIdx
    simp only
    omega
  omega

theorem toOrd_firstOfIdx_bound (k : ℤ) (j : ℕ) :
    toOrd (firstOfIdx (k + j)) ≤ toOrd (firstOfIdx k) + 31 * j := by
  induction j with
  | zero => simp
  | succ i ih =>
    have hs := toOrd_firstOfIdx_succ (k + i)
    have hb := daysInMonth_bounds ((k + i) / 12) ((k + i) % 12 + 1)
    have he : k + ((i : ℤ) + 1) = (k + i) + 1 := by ring
    push_cast
    push_cast at ih
    rw [he, hs]
    omega

theorem midx_lt_of_dateLt_firstOfIdx {dt : Date} (hv : Valid dt) {ν : ℤ}
    (h : dateLt dt (firstOfIdx ν)) : midxOf dt < ν := by
  obtain ⟨h1, h2, h3, h4⟩ := hv
  unfold dateLt firstOfIdx at h
  unfold midxOf
  simp only at h
  omega

theorem dateLe_monthStart_firstOfIdx {y m k : ℤ} (h1 : 1 ≤ m) (h2 : m ≤ 12)
    (hk : 12 * y + m - 1 ≤ k) : dateLe ⟨y, m, 1⟩ (firstOfIdx k) := by
  unfold dateLe firstOfIdx
  simp only
  omega

theorem dateLt_firstOfIdx_monthStart {k y m d : ℤ} (h1 : 1 ≤ m) (h2 : m ≤ 12)
    (_h3 : 1 ≤ d) (hk : k < 12 * y + m - 1) : dateLt (firstOfIdx k) ⟨y, m, d⟩ := by
  unfold dateLt firstOfIdx
  simp only
  omega

theorem mkeyLe_pairOfIdx {a b : ℤ} (h : a ≤ b) : mkeyLe (pairOfIdx a) (pairOfIdx b) := by
  unfold mkeyLe pairOfIdx
  simp only
  omega

theorem histStep_fst (daily : DailyTotals) (today fdcm cutoff : Date) (k : ℤ)
    (es : List ((ℤ × ℤ) × ℤ)) (i : ℕ) :
    (histStep daily today fdcm cutoff (firstOfIdx k, es) i).1 = firstOfIdx (k + 1) := by
  simp only [histStep, firstOfIdx]
  have h1 : addDays ⟨k / 12, k % 12 + 1, daysInMonth (k / 12) (k % 12 + 1)⟩ 1 =
      nextDay ⟨k / 12, k % 12 + 1, daysInMonth (k / 12) (k % 12 + 1)⟩ := rfl
  rw [h1, nextDay_monthEnd k]
  rfl

theorem histStep_snd_keys (daily : DailyTotals) (today fdcm cutoff : Date) (k : ℤ)
    (es : List ((ℤ × ℤ) × ℤ)) (i : ℕ)
    (h1 : dateLt (firstOfIdx k) fdcm) (h2 : dateLe cutoff (firstOfIdx k))
    (hfresh : pairOfIdx k ∉ es.map Prod.fst) :
    (histStep daily today fdcm cutoff (firstOfIdx k, es) i).2.map Prod.fst =
      es.map Prod.fst ++ [pairOfIdx k] := by
  have h1' : dateLt ⟨k / 12, k % 12 + 1, 1⟩ fdcm := h1
  have h2' : dateLe cutoff ⟨k / 12, k % 12 + 1, 1⟩ := h2
  have hfresh' : (k / 12, k % 12 + 1) ∉ es.map Prod.fst := hfresh
  simp only [histStep, firstOfIdx]
  rw [if_pos (Or.inr h1'), if_pos h2']
  rw [dinsert_fresh _ _ _ hfresh']
  simp [pairOfIdx]

theorem histFold_state (daily : DailyTotals) (today fdcm cutoff : Date) (q : ℤ)
    (hG1 : ∀ k : ℤ, q ≤ k → k < q + 13 → dateLt (firstOfIdx k) fdcm)
    (hG2 : ∀ k : ℤ, q ≤ k → k < q + 13 → dateLe cutoff (firstOfIdx k)) :
    ∀ j : ℕ, j ≤ 13 →
      ((List.range j).foldl (histStep daily today fdcm cutoff) (firstOfIdx q, [])).1 =
        firstOfIdx (q + j) ∧
      ((List.range j).foldl (histStep daily today fdcm cutoff)
          (firstOfIdx q, [])).2.map Prod.fst =
        (List.range j).map (fun (i : ℕ) => pairOfIdx (q + (i : ℤ))) := by
  intro j
  induction j with
  | zero =>
    intro _
    constructor
    · simp
    · rfl
  | succ i ih =>
    intro hj
    obtain ⟨hfst, hsnd⟩ := ih (by omega)
    rw [List.range_succ, List.foldl_append]
    simp only [List.foldl_cons, List.foldl_nil]
    have heta : (List.range i).foldl (histStep daily today fdcm cutoff) (firstOfIdx q, []) =
        (firstOfIdx (q + i),
          ((List.range i).foldl (histStep daily today fdcm cutoff) (firstOfIdx q, [])).2) := by
      rw [← hfst]
    rw [heta]
    have hfresh : pairOfIdx (q + i) ∉
        (((List.range i).foldl (histStep daily today fdcm cutoff)
          (firstOfIdx q, [])).2).map Prod.fst := by
      rw [hsnd]
      intro hmem
      simp only [List.mem_map, List.mem_range] at hmem
      obtain ⟨l, hl, he⟩ := hmem
      have := pairOfIdx_inj he
      omega
    constructor
    · rw [histStep_fst]
      congr 1
      push_cast
      ring
    · rw [histStep_snd_keys daily today fdcm cutoff (q + i) _ i
        (hG1 (q + i) (by omega) (by omega))
        (hG2 (q + i) (by omega) (by omega)) hfresh]
      rw [hsnd, List.map_append]
      simp

theorem chain'_consecutive (c : ℤ) (n : ℕ) :
    List.Chain' (fun a b => mIdx b = mIdx a + 1)
      ((List.range n).map (fun (i : ℕ) => pairOfIdx (c + (i : ℤ)))) := by
  rw [List.chain'_map]
  cases n with
  | zero => simp
  | succ k =>
    rw [List.chain'_range_succ]
    intro m _
    rw [mIdx_pairOfIdx, mIdx_pairOfIdx]
    push_cast
    ring

set_option maxRecDepth 4000 in
theorem histYearMonthOf_keys (daily : DailyTotals) (today : Date) (μ : ℤ)
    (hval : Valid today) (hμ : μ = midxOf today) :
    (histYearMonthOf daily today ⟨today.year, today.month, 1⟩
        (monthStartOf (prevDay ⟨today.year, today.month, 1⟩))).map Prod.fst =
      (List.range 12).map (fun (i : ℕ) => pairOfIdx (μ - 12 + (i : ℤ))) := by
  obtain ⟨h1, h2, h3, h4⟩ := hval
  have hfdcm : (⟨today.year, today.month, 1⟩ : Date) = firstOfIdx μ := by
    rw [hμ]
    unfold midxOf
    exact firstOfMonth_eq_firstOfIdx h1 h2
  have hflm : monthStartOf (prevDay ⟨today.year, today.month, 1⟩) = firstOfIdx (μ - 1) := by
    have he : monthStartOf (prevDay ⟨today.year, today.month, 1⟩) =
        monthBack ⟨today.year, today.month, 1⟩ := rfl
    rw [he, hfdcm, monthBack_firstOfIdx]
  -- the cutoff month: 401 days before the first of the current month
  have hvcp : Valid (subDays (firstOfIdx μ) 401) :=
    valid_subDays (firstOfIdx_valid μ) 401
  have hocp : toOrd (subDays (firstOfIdx μ) 401) = toOrd (firstOfIdx μ) - 401 := by
    rw [toOrd_subDays (firstOfIdx_valid μ) 401]
    norm_num
  have hbound := toOrd_firstOfIdx_bound (μ - 12) 12
  have harith : (μ - 12) + ((12 : ℕ) : ℤ) = μ := by push_cast; ring
  rw [harith] at hbound
  have hlt : dateLt (subDays (firstOfIdx μ) 401) (firstOfIdx (μ - 12)) := by
    apply (dateLt_iff_toOrd hvcp (firstOfIdx_valid _)).mpr
    push_cast at hbound
    omega
  have hmidx : midxOf (subDays (firstOfIdx μ) 401) < μ - 12 :=
    midx_lt_of_dateLt_firstOfIdx hvcp hlt
  have hG2 : ∀ k : ℤ, μ - 13 ≤ k → k < μ - 13 + 13 →
      dateLe (monthStartOf (subDays (firstOfIdx μ) 401)) (firstOfIdx k) := by
    intro k hk1 _
    obtain ⟨hc1, hc2, _, _⟩ := hvcp
    unfold midxOf at hmidx
    exact dateLe_monthStart_firstOfIdx hc1 hc2 (by omega)
  have hG1 : ∀ k : ℤ, μ - 13 ≤ k → k < μ - 13 + 13 →
      dateLt (firstOfIdx k) (firstOfIdx μ) := by
    intro k _ hk2
    have hpb := pairOfIdx_month_bounds μ
    unfold pairOfIdx at hpb
    apply dateLt_firstOfIdx_monthStart (by omega) (by omega) (by omega) (by omega)
  have hfold := histFold_state daily today (firstOfIdx μ)
    (monthStartOf (subDays (firstOfIdx μ) 401)) (μ - 13) hG1 hG2 13 (le_refl 13)
  obtain ⟨hfst, hsnd⟩ := hfold
  simp only [histYearMonthOf]
  rw [hflm, monthBack_firstOfIdx]
  have h11 : monthBack^[11] (firstOfIdx (μ - 1 - 1)) = firstOfIdx (μ - 13) := by
    have he : μ - 1 - 1 - ((11 : ℕ) : ℤ) = μ - 13 := by push_cast; ring
    rw [monthBack_iter, he]
  rw [h11, hfdcm]
  have hcutoff : monthStartOf (subDays (monthStartOf today) 401) =
      monthStartOf (subDays (firstOfIdx μ) 401) := by
    have hms : monthStartOf today = (⟨today.year, today.month, 1⟩ : Date) := rfl
    rw [hms, hfdcm]
  rw [hcutoff, hsnd]
  have hsorted : List.Sorted mkeyLe
      ((List.range 13).map (fun (i : ℕ) => pairOfIdx (μ - 13 + (i : ℤ)))) := by
    rw [List.Sorted, List.pairwise_map]
    apply (List.pairwise_lt_range 13).imp
    intro a b hab
    exact mkeyLe_pairOfIdx (by omega)
  rw [hsorted.insertionSort_eq]
  have hlen : ((List.range 13).map (fun (i : ℕ) => pairOfIdx (μ - 13 + (i : ℤ)))).length = 13 := by
    simp
  rw [hlen]
  have h13 : List.range 13 = 0 :: (List.range 12).map Nat.succ := List.range_succ_eq_map 12
  rw [h13]
  simp only [List.map_cons, List.map_map, List.drop_succ_cons, List.drop_zero]
  apply List.map_congr_left
  intro a _
  simp only [Function.comp]
  have he : μ - 13 + ((Nat.succ a : ℕ) : ℤ) = μ - 12 + (a : ℤ) := by push_cast; ring
  rw [he]

/-! ## Value facts for the cumulative series -/

theorem dictGet_nonneg {daily : DailyTotals} (hnn : ∀ p ∈ daily, 0 ≤ p.2) (d : Date) :
    0 ≤ dictGet daily d 0 := by
  induction daily with
  | nil => simp [dictGet]
  | cons p t ih =>
    obtain ⟨a, b⟩ := p
    unfold dictGet
    split_ifs
    · exact hnn (a, b) (by simp)
    · exact ih (fun q hq => hnn q (by simp [hq]))

theorem seriesSum_nonneg {daily : DailyTotals} (hnn : ∀ p ∈ daily, 0 ≤ p.2)
    (start : Date) (k : ℕ) : 0 ≤ seriesSum daily start k := by
  unfold seriesSum
  apply List.sum_nonneg
  intro x hx
  simp only [List.mem_map] at hx
  obtain ⟨j, _, he⟩ := hx
  rw [← he]
  exact dictGet_nonneg hnn _

theorem seriesSum_le_succ {daily : DailyTotals} (hnn : ∀ p ∈ daily, 0 ≤ p.2)
    (start : Date) (k : ℕ) : seriesSum daily start k ≤ seriesSum daily start (k + 1) := by
  rw [seriesSum_succ]
  have := dictGet_nonneg hnn (addDays start k)
  linarith

theorem runSumSeries_chain {daily : DailyTotals} (hnn : ∀ p ∈ daily, 0 ≤ p.2)
    (start : Date) (n : ℕ) :
    List.Chain' (fun a b : Date × ℤ => a.2 ≤ b.2) (runSumSeries daily start n) := by
  unfold runSumSeries
  rw [List.chain'_map]
  cases n with
  | zero => simp
  | succ k =>
    rw [List.chain'_range_succ]
    intro m _
    exact pyRound_mono (seriesSum_le_succ hnn start (m + 1))

theorem runSumSeries_nonneg {daily : DailyTotals} (hnn : ∀ p ∈ daily, 0 ≤ p.2)
    (start : Date) (n : ℕ) :
    ∀ p ∈ runSumSeries daily start n, 0 ≤ p.2 := by
  intro p hp
  unfold runSumSeries at hp
  simp only [List.mem_map, List.mem_range] at hp
  obtain ⟨i, _, he⟩ := hp
  rw [← he]
  exact pyRound_nonneg (seriesSum_nonneg hnn start (i + 1))

theorem runSumSeries_values (daily : DailyTotals) (start : Date) (n : ℕ) :
    (runSumSeries daily start n).map Prod.snd =
      (List.range n).map (fun (i : ℕ) => pyRound (seriesSum daily start (i + 1))) := by
  simp [runSumSeries, List.map_map, Function.comp]

/-- Closed form of the cumulative-month series, with the days written out. -/
theorem cumulMonth_closed (daily : DailyTotals) (today : Date) (ht : Valid today) :
    (aggregate_data daily today).cumul_month =
      (List.range today.day.toNat).map (fun (i : ℕ) =>
        (⟨today.year, today.month, 1 + (i : ℤ)⟩,
         pyRound (((List.range (i + 1)).map
           (fun (j : ℕ) => dictGet daily ⟨today.year, today.month, 1 + (j : ℤ)⟩ 0)).sum))) := by
  obtain ⟨h1, h2, h3, h4⟩ := ht
  have hvf : Valid ⟨today.year, today.month, 1⟩ := valid_firstOfMonth h1 h2
  rw [aggregate_cumul_month,
    runningSumLoop_eq daily hvf ⟨h1, h2, h3, h4⟩ (toOrd_firstOfMonth_le today ⟨h1, h2, h3, h4⟩),
    spanFuel_month today ⟨h1, h2, h3, h4⟩]
  unfold runSumSeries
  apply List.map_congr_left
  intro i hi
  simp only [List.mem_range] at hi
  have hdays : ∀ j : ℕ, (j : ℤ) < today.day →
      addDays ⟨today.year, today.month, 1⟩ j = ⟨today.year, today.month, 1 + (j : ℤ)⟩ := by
    intro j hj
    exact addDays_in_month hvf j (by omega)
  have hi' : (i : ℤ) < today.day := by omega
  rw [hdays i hi']
  congr 1
  unfold seriesSum
  congr 1
  congr 1
  apply List.map_congr_left
  intro j hj
  simp only [List.mem_range] at hj
  rw [hdays j (by omega)]

/-! ## Claims -/

/-- C1: the claim says `aggregate_data` is total over valid inputs and maps an
empty `DailyTotals` to well-formed all-zero series.  The code is not: line 139
calls `.date()` on a `datetime.date`, so the call raises `AttributeError` for
every input; at the spec's own scenario input (empty totals, today =
2024-06-15) the modelled execution errors instead of returning a
`SeriesCollection`. -/
theorem claim_C1_aggregate_raises :
    aggregate_data_py [] ⟨2024, 6, 15⟩ =
      Except.error "AttributeError: 'datetime.date' object has no attribute 'date'" := rfl

set_option maxRecDepth 4000 in
/-- C2: the claim says `hist_year_month` covers months anchor-11 … anchor
(anchor = today's month, summed only up to today).  On the code, with
today = 2024-06-15 and 5 m of gain on that very day, the series covers
2023-06 … 2024-05 — twelve *full* months ending at the month *before* the
anchor — so the anchor month 2024-06 is absent and today's gain lands in no
bucket. -/
theorem claim_C2_hist_window_shifted :
    ((aggregate_data [(⟨2024, 6, 15⟩, 5)] ⟨2024, 6, 15⟩).hist_year_month.map Prod.fst =
      [(2023, 6), (2023, 7), (2023, 8), (2023, 9), (2023, 10), (2023, 11), (2023, 12),
       (2024, 1), (2024, 2), (2024, 3), (2024, 4), (2024, 5)]) ∧
    (2024, 6) ∉ (aggregate_data
      [(⟨2024, 6, 15⟩, 5)] ⟨2024, 6, 15⟩).hist_year_month.map Prod.fst := by
  have hk := histYearMonthOf_keys [(⟨2024, 6, 15⟩, 5)] ⟨2024, 6, 15⟩
    (midxOf ⟨2024, 6, 15⟩) (by decide) rfl
  rw [aggregate_hist_year_month, hk]
  constructor
  · decide
  · decide

/-- C9 (counterexample): a "Run" record with a parseable date whose
`total_elevation_gain` is present but not float-coercible is *skipped* by
`process_activities` — no bucket is created for its day — contradicting the
claim that such a record still contributes 0 to its day's bucket. -/
theorem claim_C9_counterexample :
    process_activities [⟨some "Run", some ⟨2024, 1, 5⟩, some Measure.nonNumeric⟩] = [] ∧
    (⟨2024, 1, 5⟩ : Date) ∉ (process_activities
      [⟨some "Run", some ⟨2024, 1, 5⟩, some Measure.nonNumeric⟩]).map Prod.fst := by
  constructor
  · rfl
  · simp [process_activities, ACTIVITY_TYPES]

/-- C9 (amended): for a record of an accepted category with a parseable start
date, an *absent* measure is treated as 0 (the record still touches its day's
bucket, adding 0), while a measure that is present but not float-coercible
makes `float` raise, so the whole record is skipped and the totals are
unchanged. -/
theorem claim_C9_measure_handling (pre : List Activity) (t : String)
    (ht : t ∈ ACTIVITY_TYPES) (d : Date) :
    process_activities (pre ++ [⟨some t, some d, none⟩]) =
      dinsert (process_activities pre) d (dictGet (process_activities pre) d 0 + 0) ∧
    process_activities (pre ++ [⟨some t, some d, some Measure.nonNumeric⟩]) =
      process_activities pre := by
  constructor
  · unfold process_activities
    rw [List.foldl_append]
    simp only [List.foldl_cons, List.foldl_nil]
    rw [if_pos ht]
  · unfold process_activities
    rw [List.foldl_append]
    simp only [List.foldl_cons, List.foldl_nil]
    rw [if_pos ht]

theorem claim_C9_witness :
    "Run" ∈ ACTIVITY_TYPES ∧
    (process_activities ([] ++ [⟨some "Run", some ⟨2024, 1, 5⟩, none⟩]) =
      dinsert (process_activities []) ⟨2024, 1, 5⟩
        (dictGet (process_activities []) ⟨2024, 1, 5⟩ 0 + 0) ∧
    process_activities ([] ++ [⟨some "Run", some ⟨2024, 1, 5⟩, some Measure.nonNumeric⟩]) =
      process_activities []) :=
  ⟨by decide, claim_C9_measure_handling [] "Run" (by decide) ⟨2024, 1, 5⟩⟩

/-- C3: for every `DailyTotals` and valid reference date, `hist_year_month`
has exactly 12 entries, whose month keys are the fixed consecutive strictly
increasing months `midxOf today - 12 … midxOf today - 1` — a closed form
independent of the data, so a month whose bucket sums to zero is still
included. -/
theorem claim_C3_hist_structure (daily : DailyTotals) (today : Date) (ht : Valid today) :
    (aggregate_data daily today).hist_year_month.length = 12 ∧
    (aggregate_data daily today).hist_year_month.map Prod.fst =
      (List.range 12).map (fun (i : ℕ) => pairOfIdx (midxOf today - 12 + (i : ℤ))) ∧
    List.Chain' (fun a b => mIdx b = mIdx a + 1)
      ((aggregate_data daily today).hist_year_month.map Prod.fst) := by
  have hk := histYearMonthOf_keys daily today (midxOf today) ht rfl
  rw [aggregate_hist_year_month]
  refine ⟨?_, hk, ?_⟩
  · have hlen := congrArg List.length hk
    simpa using hlen
  · rw [hk]
    exact chain'_consecutive (midxOf today - 12) 12

theorem claim_C3_witness :
    Valid ⟨2024, 1, 3⟩ ∧
    ((aggregate_data [] ⟨2024, 1, 3⟩).hist_year_month.length = 12 ∧
     (aggregate_data [] ⟨2024, 1, 3⟩).hist_year_month.map Prod.fst =
       (List.range 12).map (fun (i : ℕ) => pairOfIdx (midxOf ⟨2024, 1, 3⟩ - 12 + (i : ℤ))) ∧
     List.Chain' (fun a b => mIdx b = mIdx a + 1)
       ((aggregate_data [] ⟨2024, 1, 3⟩).hist_year_month.map Prod.fst)) :=
  ⟨by decide, claim_C3_hist_structure [] ⟨2024, 1, 3⟩ (by decide)⟩

/-- C4: `hist_last_month_day` has one entry per calendar day of the month
before the reference month (December of the prior year when the reference
month is January), in chronological order, valued with the (rounded) daily
total, 0 when absent; the entry count is that month's day count, which lies
in 28…31. -/
theorem claim_C4_hist_last_month (daily : DailyTotals) (today : Date) (ht : Valid today)
    (py pm : ℤ)
    (hpy : py = if today.month = 1 then today.year - 1 else today.year)
    (hpm : pm = if today.month = 1 then 12 else today.month - 1) :
    (aggregate_data daily today).hist_last_month_day =
      (List.range (daysInMonth py pm).toNat).map (fun (i : ℕ) =>
        (⟨py, pm, 1 + (i : ℤ)⟩, pyRound (dictGet daily ⟨py, pm, 1 + (i : ℤ)⟩ 0))) ∧
    (aggregate_data daily today).hist_last_month_day.length = (daysInMonth py pm).toNat ∧
    28 ≤ daysInMonth py pm ∧ daysInMonth py pm ≤ 31 := by
  obtain ⟨h1, h2, h3, h4⟩ := ht
  have hb := daysInMonth_bounds py pm
  have hpmb : 1 ≤ pm ∧ pm ≤ 12 := by rw [hpm]; split_ifs <;> omega
  have hprev : prevDay ⟨today.year, today.month, 1⟩ = ⟨py, pm, daysInMonth py pm⟩ := by
    rw [prevDay_firstOfMonth today ⟨h1, h2, h3, h4⟩]
    by_cases hm : today.month = 1
    · rw [if_pos hm, hpy, hpm, if_pos hm, if_pos hm, daysInMonth_twelve]
    · rw [if_neg hm, hpy, hpm, if_neg hm, if_neg hm]
  have hms : monthStartOf (prevDay ⟨today.year, today.month, 1⟩) = ⟨py, pm, 1⟩ := by
    rw [hprev]
    rfl
  have hvf : Valid ⟨py, pm, 1⟩ := valid_firstOfMonth hpmb.1 hpmb.2
  have hvl : Valid ⟨py, pm, daysInMonth py pm⟩ := valid_monthEnd hpmb.1 hpmb.2
  have hle : toOrd ⟨py, pm, 1⟩ ≤ toOrd ⟨py, pm, daysInMonth py pm⟩ := by
    simp only [toOrd]
    omega
  have hspan : spanFuel ⟨py, pm, 1⟩ ⟨py, pm, daysInMonth py pm⟩ =
      (daysInMonth py pm).toNat := by
    simp only [spanFuel, toOrd]
    omega
  have hA : (aggregate_data daily today).hist_last_month_day =
      (List.range (daysInMonth py pm).toNat).map (fun (i : ℕ) =>
        (⟨py, pm, 1 + (i : ℤ)⟩, pyRound (dictGet daily ⟨py, pm, 1 + (i : ℤ)⟩ 0))) := by
    rw [aggregate_hist_last_month_day, hms, hprev,
      histLastMonthDayOf_eq daily hvf hvl hle, hspan]
    unfold dayValsSeries
    apply List.map_congr_left
    intro i hi
    simp only [List.mem_range] at hi
    have hd : addDays ⟨py, pm, 1⟩ i = ⟨py, pm, 1 + (i : ℤ)⟩ :=
      addDays_in_month hvf i (by omega)
    rw [hd]
  refine ⟨hA, ?_, hb.1, hb.2⟩
  rw [hA]
  simp

theorem claim_C4_witness :
    Valid ⟨2024, 1, 3⟩ ∧
    ((2023 : ℤ) = if (⟨2024, 1, 3⟩ : Date).month = 1 then (⟨2024, 1, 3⟩ : Date).year - 1
      else (⟨2024, 1, 3⟩ : Date).year) ∧
    ((12 : ℤ) = if (⟨2024, 1, 3⟩ : Date).month = 1 then 12
      else (⟨2024, 1, 3⟩ : Date).month - 1) ∧
    ((aggregate_data [] ⟨2024, 1, 3⟩).hist_last_month_day =
      (List.range (daysInMonth 2023 12).toNat).map (fun (i : ℕ) =>
        ((⟨2023, 12, 1 + (i : ℤ)⟩ : Date),
         pyRound (dictGet ([] : DailyTotals) ⟨2023, 12, 1 + (i : ℤ)⟩ 0))) ∧
     (aggregate_data [] ⟨2024, 1, 3⟩).hist_last_month_day.length =
       (daysInMonth 2023 12).toNat ∧
     28 ≤ daysInMonth 2023 12 ∧ daysInMonth 2023 12 ≤ 31) :=
  ⟨by decide, by decide, by decide,
    claim_C4_hist_last_month [] ⟨2024, 1, 3⟩ (by decide) 2023 12 (by decide) (by decide)⟩

set_option maxRecDepth 20000 in
/-- C5: `cumul_month` is the running sum over the days from the 1st of the
reference month through the reference date inclusive, one entry per day, each
day adding its daily total (0 when absent), the running value rounded at
emission; and on the spec's scenario (100 m on 2024-01-01, 50 m on
2024-01-02, today 2024-01-02) it equals [(2024-01-01, 100), (2024-01-02, 150)]. -/
theorem claim_C5_cumul_month :
    (∀ (daily : DailyTotals) (today : Date), Valid today →
      (aggregate_data daily today).cumul_month =
        (List.range today.day.toNat).map (fun (i : ℕ) =>
          (⟨today.year, today.month, 1 + (i : ℤ)⟩,
           pyRound (((List.range (i + 1)).map
             (fun (j : ℕ) => dictGet daily ⟨today.year, today.month, 1 + (j : ℤ)⟩ 0)).sum)))) ∧
    (aggregate_data [(⟨2024, 1, 1⟩, 100), (⟨2024, 1, 2⟩, 50)] ⟨2024, 1, 2⟩).cumul_month =
      [(⟨2024, 1, 1⟩, 100), (⟨2024, 1, 2⟩, 150)] := by
  constructor
  · exact fun daily today ht => cumulMonth_closed daily today ht
  · rw [cumulMonth_closed [(⟨2024, 1, 1⟩, 100), (⟨2024, 1, 2⟩, 50)] ⟨2024, 1, 2⟩ (by decide)]
    with_unfolding_all decide

theorem claim_C5_witness :
    Valid ⟨2024, 2, 3⟩ ∧
    (aggregate_data [] ⟨2024, 2, 3⟩).cumul_month =
      (List.range (⟨2024, 2, 3⟩ : Date).day.toNat).map (fun (i : ℕ) =>
        (⟨(⟨2024, 2, 3⟩ : Date).year, (⟨2024, 2, 3⟩ : Date).month, 1 + (i : ℤ)⟩,
         pyRound (((List.range (i + 1)).map
           (fun (j : ℕ) => dictGet ([] : DailyTotals)
             ⟨(⟨2024, 2, 3⟩ : Date).year, (⟨2024, 2, 3⟩ : Date).month, 1 + (j : ℤ)⟩ 0)).sum))) :=
  ⟨by decide, claim_C5_cumul_month.1 [] ⟨2024, 2, 3⟩ (by decide)⟩

/-- C6: `cumul_week` runs from the most recent Monday on or before the
reference date (the reference date itself on a Monday) through the reference
date: its keys are exactly those days, its start is a Monday (weekday 0), its
length is the reference date's weekday index plus one — hence at most 7, and
exactly 1 precisely on a Monday. -/
theorem claim_C6_cumul_week (daily : DailyTotals) (today : Date) (ht : Valid today) :
    (aggregate_data daily today).cumul_week.map Prod.fst =
      dayRange (subDays today (weekday today).toNat) ((weekday today).toNat + 1) ∧
    weekday (subDays today (weekday today).toNat) = 0 ∧
    (aggregate_data daily today).cumul_week.length = (weekday today).toNat + 1 ∧
    (aggregate_data daily today).cumul_week.length ≤ 7 ∧
    ((aggregate_data daily today).cumul_week.length = 1 ↔ weekday today = 0) := by
  have hvs : Valid (subDays today (weekday today).toNat) := valid_subDays ht _
  have hos := toOrd_startOfWeek today ht
  have hwb := weekday_bounds today
  have hle : toOrd (subDays today (weekday today).toNat) ≤ toOrd today := by omega
  have heq : (aggregate_data daily today).cumul_week =
      runSumSeries daily (subDays today (weekday today).toNat)
        (spanFuel (subDays today (weekday today).toNat) today) := by
    rw [aggregate_cumul_week, cumulWeekOf_eq_plain daily hvs ht hle,
      runningSumLoop_eq daily hvs ht hle]
  rw [heq, spanFuel_week today ht]
  refine ⟨runSumSeries_keys _ _ _, weekday_startOfWeek today ht, ?_, ?_, ?_⟩
  · simp only [runSumSeries, List.length_map, List.length_range]
  · simp only [runSumSeries, List.length_map, List.length_range]
    omega
  · simp only [runSumSeries, List.length_map, List.length_range]
    omega

theorem claim_C6_witness :
    Valid ⟨2024, 1, 3⟩ ∧
    ((aggregate_data [] ⟨2024, 1, 3⟩).cumul_week.map Prod.fst =
      dayRange (subDays ⟨2024, 1, 3⟩ (weekday ⟨2024, 1, 3⟩).toNat)
        ((weekday ⟨2024, 1, 3⟩).toNat + 1) ∧
     weekday (subDays ⟨2024, 1, 3⟩ (weekday ⟨2024, 1, 3⟩).toNat) = 0 ∧
     (aggregate_data [] ⟨2024, 1, 3⟩).cumul_week.length = (weekday ⟨2024, 1, 3⟩).toNat + 1 ∧
     (aggregate_data [] ⟨2024, 1, 3⟩).cumul_week.length ≤ 7 ∧
     ((aggregate_data [] ⟨2024, 1, 3⟩).cumul_week.length = 1 ↔ weekday ⟨2024, 1, 3⟩ = 0)) :=
  ⟨by decide, claim_C6_cumul_week [] ⟨2024, 1, 3⟩ (by decide)⟩

/-- C7: when all daily totals are non-negative, each cumulative series
(`cumul_year`, `cumul_month`, `cumul_week`), read in emission order, is a
monotonically non-decreasing sequence of non-negative values. -/
theorem claim_C7_cumul_monotone (daily : DailyTotals) (today : Date) (ht : Valid today)
    (hnn : ∀ p ∈ daily, 0 ≤ p.2) :
    (List.Chain' (fun a b : Date × ℤ => a.2 ≤ b.2) (aggregate_data daily today).cumul_year ∧
      ∀ p ∈ (aggregate_data daily today).cumul_year, 0 ≤ p.2) ∧
    (List.Chain' (fun a b : Date × ℤ => a.2 ≤ b.2) (aggregate_data daily today).cumul_month ∧
      ∀ p ∈ (aggregate_data daily today).cumul_month, 0 ≤ p.2) ∧
    (List.Chain' (fun a b : Date × ℤ => a.2 ≤ b.2) (aggregate_data daily today).cumul_week ∧
      ∀ p ∈ (aggregate_data daily today).cumul_week, 0 ≤ p.2) := by
  obtain ⟨h1, h2, h3, h4⟩ := ht
  have ht' : Valid today := ⟨h1, h2, h3, h4⟩
  have hy : (aggregate_data daily today).cumul_year =
      runSumSeries daily ⟨today.year, 1, 1⟩ (spanFuel ⟨today.year, 1, 1⟩ today) := by
    rw [aggregate_cumul_year,
      runningSumLoop_eq daily (valid_firstOfYear today.year) ht' (toOrd_firstOfYear_le today ht')]
  have hm : (aggregate_data daily today).cumul_month =
      runSumSeries daily ⟨today.year, today.month, 1⟩
        (spanFuel ⟨today.year, today.month, 1⟩ today) := by
    rw [aggregate_cumul_month,
      runningSumLoop_eq daily (valid_firstOfMonth h1 h2) ht' (toOrd_firstOfMonth_le today ht')]
  have hvs : Valid (subDays today (weekday today).toNat) := valid_subDays ht' _
  have hos := toOrd_startOfWeek today ht'
  have hwb := weekday_bounds today
  have hle : toOrd (subDays today (weekday today).toNat) ≤ toOrd today := by omega
  have hw : (aggregate_data daily today).cumul_week =
      runSumSeries daily (subDays today (weekday today).toNat)
        (spanFuel (subDays today (weekday today).toNat) today) := by
    rw [aggregate_cumul_week, cumulWeekOf_eq_plain daily hvs ht' hle,
      runningSumLoop_eq daily hvs ht' hle]
  rw [hy, hm, hw]
  exact ⟨⟨runSumSeries_chain hnn _ _, runSumSeries_nonneg hnn _ _⟩,
    ⟨runSumSeries_chain hnn _ _, runSumSeries_nonneg hnn _ _⟩,
    ⟨runSumSeries_chain hnn _ _, runSumSeries_nonneg hnn _ _⟩⟩

theorem claim_C7_witness :
    Valid ⟨2024, 1, 2⟩ ∧
    (∀ p ∈ ([(⟨2024, 1, 1⟩, 100), (⟨2024, 1, 2⟩, 50)] : DailyTotals), 0 ≤ p.2) ∧
    ((List.Chain' (fun a b : Date × ℤ => a.2 ≤ b.2)
        (aggregate_data [(⟨2024, 1, 1⟩, 100), (⟨2024, 1, 2⟩, 50)] ⟨2024, 1, 2⟩).cumul_year ∧
      ∀ p ∈ (aggregate_data [(⟨2024, 1, 1⟩, 100), (⟨2024, 1, 2⟩, 50)]
          ⟨2024, 1, 2⟩).cumul_year, 0 ≤ p.2) ∧
     (List.Chain' (fun a b : Date × ℤ => a.2 ≤ b.2)
        (aggregate_data [(⟨2024, 1, 1⟩, 100), (⟨2024, 1, 2⟩, 50)] ⟨2024, 1, 2⟩).cumul_month ∧
      ∀ p ∈ (aggregate_data [(⟨2024, 1, 1⟩, 100), (⟨2024, 1, 2⟩, 50)]
          ⟨2024, 1, 2⟩).cumul_month, 0 ≤ p.2) ∧
     (List.Chain' (fun a b : Date × ℤ => a.2 ≤ b.2)
        (aggregate_data [(⟨2024, 1, 1⟩, 100), (⟨2024, 1, 2⟩, 50)] ⟨2024, 1, 2⟩).cumul_week ∧
      ∀ p ∈ (aggregate_data [(⟨2024, 1, 1⟩, 100), (⟨2024, 1, 2⟩, 50)]
          ⟨2024, 1, 2⟩).cumul_week, 0 ≤ p.2)) :=
  ⟨by decide, by with_unfolding_all decide,
    claim_C7_cumul_monotone [(⟨2024, 1, 1⟩, 100), (⟨2024, 1, 2⟩, 50)] ⟨2024, 1, 2⟩
      (by decide) (by with_unfolding_all decide)⟩

/-- C8: in each cumulative series the emitted values are exactly
`pyRound` of the *exact* prefix sums of the daily values — the `i`-th value
is the rounding of the unrounded sum of the first `i+1` daily amounts, i.e.
rounding happens only at emission, never before accumulation. -/
theorem claim_C8_round_at_emission (daily : DailyTotals) (today : Date) (ht : Valid today) :
    ((aggregate_data daily today).cumul_year.map Prod.snd =
      (List.range (spanFuel ⟨today.year, 1, 1⟩ today)).map
        (fun (i : ℕ) => pyRound (seriesSum daily ⟨today.year, 1, 1⟩ (i + 1)))) ∧
    ((aggregate_data daily today).cumul_month.map Prod.snd =
      (List.range (spanFuel ⟨today.year, today.month, 1⟩ today)).map
        (fun (i : ℕ) => pyRound (seriesSum daily ⟨today.year, today.month, 1⟩ (i + 1)))) ∧
    ((aggregate_data daily today).cumul_week.map Prod.snd =
      (List.range (spanFuel (subDays today (weekday today).toNat) today)).map
        (fun (i : ℕ) =>
          pyRound (seriesSum daily (subDays today (weekday today).toNat) (i + 1)))) := by
  obtain ⟨h1, h2, h3, h4⟩ := ht
  have ht' : Valid today := ⟨h1, h2, h3, h4⟩
  have hvs : Valid (subDays today (weekday today).toNat) := valid_subDays ht' _
  have hos := toOrd_startOfWeek today ht'
  have hwb := weekday_bounds today
  have hle : toOrd (subDays today (weekday today).toNat) ≤ toOrd today := by omega
  refine ⟨?_, ?_, ?_⟩
  · rw [aggregate_cumul_year,
      runningSumLoop_eq daily (valid_firstOfYear today.year) ht' (toOrd_firstOfYear_le today ht')]
    exact runSumSeries_values daily _ _
  · rw [aggregate_cumul_month,
      runningSumLoop_eq daily (valid_firstOfMonth h1 h2) ht' (toOrd_firstOfMonth_le today ht')]
    exact runSumSeries_values daily _ _
  · rw [aggregate_cumul_week, cumulWeekOf_eq_plain daily hvs ht' hle,
      runningSumLoop_eq daily hvs ht' hle]
    exact runSumSeries_values daily _ _

theorem claim_C8_witness :
    Valid ⟨2024, 1, 2⟩ ∧
    (((aggregate_data [(⟨2024, 1, 1⟩, 100)] ⟨2024, 1, 2⟩).cumul_year.map Prod.snd =
      (List.range (spanFuel ⟨(⟨2024, 1, 2⟩ : Date).year, 1, 1⟩ ⟨2024, 1, 2⟩)).map
        (fun (i : ℕ) =>
          pyRound (seriesSum [(⟨2024, 1, 1⟩, 100)] ⟨(⟨2024, 1, 2⟩ : Date).year, 1, 1⟩ (i + 1)))) ∧
    ((aggregate_data [(⟨2024, 1, 1⟩, 100)] ⟨2024, 1, 2⟩).cumul_month.map Prod.snd =
      (List.range (spanFuel ⟨(⟨2024, 1, 2⟩ : Date).year, (⟨2024, 1, 2⟩ : Date).month, 1⟩
          ⟨2024, 1, 2⟩)).map
        (fun (i : ℕ) =>
          pyRound (seriesSum [(⟨2024, 1, 1⟩, 100)]
            ⟨(⟨2024, 1, 2⟩ : Date).year, (⟨2024, 1, 2⟩ : Date).month, 1⟩ (i + 1)))) ∧
    ((aggregate_data [(⟨2024, 1, 1⟩, 100)] ⟨2024, 1, 2⟩).cumul_week.map Prod.snd =
      (List.range (spanFuel
          (subDays ⟨2024, 1, 2⟩ (weekday ⟨2024, 1, 2⟩).toNat) ⟨2024, 1, 2⟩)).map
        (fun (i : ℕ) =>
          pyRound (seriesSum [(⟨2024, 1, 1⟩, 100)]
            (subDays ⟨2024, 1, 2⟩ (weekday ⟨2024, 1, 2⟩).toNat) (i + 1))))) :=
  ⟨by decide, claim_C8_round_at_emission [(⟨2024, 1, 1⟩, 100)] ⟨2024, 1, 2⟩ (by decide)⟩

/-- C10: the `current_day >= start_of_week` guard inside the cumulative-week
loop is always satisfied (the loop variable starts at `start_of_week` and
only increases), so the guarded loop computes exactly what the plain
running-sum loop (the one used for the year and month series) computes from
the same start — in particular a week spanning a month boundary is not
truncated. -/
theorem claim_C10_week_guard (daily : DailyTotals) (today : Date) (ht : Valid today) :
    (aggregate_data daily today).cumul_week =
      runningSumLoop daily (subDays today (weekday today).toNat) today := by
  rw [aggregate_cumul_week]
  have hwb := weekday_bounds today
  have hos := toOrd_startOfWeek today ht
  exact cumulWeekOf_eq_plain daily (valid_subDays ht _) ht (by omega)

theorem claim_C10_witness :
    Valid ⟨2024, 2, 2⟩ ∧
    (aggregate_data [] ⟨2024, 2, 2⟩).cumul_week =
      runningSumLoop [] (subDays ⟨2024, 2, 2⟩ (weekday ⟨2024, 2, 2⟩).toNat) ⟨2024, 2, 2⟩ :=
  ⟨by decide, claim_C10_week_guard [] ⟨2024, 2, 2⟩ (by decide)⟩

end Strava
